import Mathlib

/-!
Shallow embedding of the build-order allocation engine of the repository
(`queue-algo/utility.py` and the least-damage spawn selector of
`queue-algo/algo_strategy.py`), together with theorems settling the
behavioural claims about it.

Coordinates `[x, y]` of the Python code are modelled as pairs of naturals.
The external game engine (`gamelib.GameState`) is modelled as a structure of
pure query functions; `debug_write` calls are pure logging and are omitted.
-/

namespace BoilerUp

/-- A grid coordinate `[x, y]`. -/
abbrev Coord := Nat × Nat

/-- `self.ARENA_SIZE = 28` (set in `Utility.__init__`). -/
def ARENA_SIZE : Nat := 28

/-- `utility.py` line 131: `point_hash(location) = 1 * location[0] + ARENA_SIZE * location[1]`. -/
def point_hash (location : Coord) : Nat :=
  1 * location.1 + ARENA_SIZE * location.2

/-- `utility.py` line 137:
`inv_point_hash(h) = [h % ARENA_SIZE, h // ARENA_SIZE]`. -/
def inv_point_hash (hashed_location : Nat) : Coord :=
  (hashed_location % ARENA_SIZE, hashed_location / ARENA_SIZE)

/-- One entry of `Utility.action_queue`: the dict
`{'id': ..., 'unit_type': ..., 'locations': ..., 'upgrade': ..., 'max_num': ...}`
built in `append_action`. -/
structure Action where
  id : String
  unit_type : String
  locations : List Coord
  upgrade : Bool
  max_num : Nat
deriving DecidableEq, Repr, Inhabited

/-- The mutable state of the `Utility` class: `action_queue`, `all_defenses`
and `change_flag`.  (`edge_set` is a pure function of `ARENA_SIZE` and is not
needed by any queue operation.) -/
structure Utility where
  action_queue : List Action
  all_defenses : List Coord
  change_flag : Bool
deriving DecidableEq, Repr

/-- `Utility.__init__`: empty queue, empty defense list, clean flag. -/
def utilityInit : Utility :=
  { action_queue := [], all_defenses := [], change_flag := false }

/-- The overlap-trim step of `append_action` (lines 30-36) applied to one
queued action: `overlap` is the set of hashes present both in the action's
locations and in the new `locations_set`, and for each hash in it the first
occurrence of `inv_point_hash h` is removed from the action's location list
(`list.remove`).  Python iterates over a `set`, whose order is unspecified;
erasing the first occurrences of pairwise-distinct values is
order-independent, so a fixed iteration order (first appearance) is a
faithful model.  (When `inv_point_hash h` is absent — possible only for
out-of-arena coordinates — Python's `list.remove` raises; `List.erase` is a
no-op there, and every theorem below that depends on the trim restricts to
in-arena coordinates, where the two coincide.) -/
def trim_overlap (locations_set : List Nat) (action : Action) : Action :=
  let overlap := ((action.locations.map point_hash).filter
    (fun h => locations_set.contains h)).dedup
  { action with
    locations := overlap.foldl (fun locs h => locs.erase (inv_point_hash h)) action.locations }

/-- `remove_action` (lines 67-88): find the first queue index whose `id`
matches; if none, return unchanged (silent no-op); otherwise set
`change_flag`, and pop the entry.  The loop popping
`point_hash(location)` from `all_defenses` is dead code: `all_defenses`
only ever holds coordinate pairs (refreshed in `refresh_upgrade_all`), so
`list.remove` of an integer hash always raises and is swallowed by the bare
`except: pass`; `all_defenses` is therefore unchanged. -/
def remove_action (u : Utility) (id : String) : Utility :=
  match u.action_queue.findIdx? (fun entry => entry.id == id) with
  | none => u
  | some index =>
    { u with change_flag := true, action_queue := u.action_queue.eraseIdx index }

/-- The guard of the trim step (line 30): a queued action is trimmed only
when both the new action and the queued one are placements
(`upgrade is False and action['upgrade'] is False`). -/
def trim_step (upgrade : Bool) (locations_set : List Nat) (action : Action) : Action :=
  if upgrade = false ∧ action.upgrade = false then trim_overlap locations_set action
  else action

/-- `append_action` (lines 20-47): hash the new locations; trim the overlap
out of every queued action when both the new action and the queued one are
placements (`upgrade == False`); remember whether some queued action already
carries `id` and, if so, remove it; set `change_flag`; append the new action
at the tail. -/
def append_action (u : Utility) (id unit_type : String) (locations : List Coord)
    (upgrade : Bool) (max_num : Nat) : Utility :=
  let locations_set := (locations.map point_hash).dedup
  let trimmed := u.action_queue.map (trim_step upgrade locations_set)
  let u1 : Utility := { u with action_queue := trimmed }
  let u2 := if trimmed.any (fun action => action.id == id) then remove_action u1 id else u1
  { u2 with
    change_flag := true,
    action_queue := u2.action_queue ++ [⟨id, unit_type, locations, upgrade, max_num⟩] }

/-- `prioritize_action` (lines 49-65): find the first queue index whose `id`
matches; raise `ValueError` (modelled as `none`) if absent; otherwise set
`change_flag`, pop the entry and re-insert it at index 0. -/
def prioritize_action (u : Utility) (id : String) : Option Utility :=
  match u.action_queue.findIdx? (fun entry => entry.id == id) with
  | none => none
  | some index =>
    match u.action_queue[index]? with
    | none => none
    | some value =>
      some { u with
        change_flag := true,
        action_queue := value :: u.action_queue.eraseIdx index }

/-- The external `gamelib.GameState`, reduced to the queries the embedded
code performs.  `attempt_spawn`/`attempt_upgrade` return the count of units
placed/upgraded; `turret_damage_i` is `GameUnit(TURRET, config).damage_i`,
a fixed per-hit damage constant read from the configuration. -/
structure GameState where
  turn_number : Nat
  attempt_spawn : String → Coord → Nat
  attempt_upgrade : Coord → Nat
  find_path_to_edge : Coord → Option (List Coord)
  get_attackers : Coord → Nat
  turret_damage_i : Nat

/-- One engine call issued by the executor loop of `attempt_actions`:
either `game_state.attempt_upgrade(location)` (`isUpgrade = true`) or
`game_state.attempt_spawn(unit_type, location)`. -/
structure EngineCall where
  isUpgrade : Bool
  unit_type : String
  location : Coord
deriving DecidableEq, Repr

/-- The inner loop of `attempt_actions` (lines 99-109) for one action,
returning the engine calls it issues: walk `locations` in order, accumulate
the counts the engine returns in `taken_actions`, and break once
`taken_actions >= max_num` (checked after each call). -/
def attempt_action_calls (gs : GameState) (upgrade : Bool) (unit_type : String)
    (max_num : Nat) : List Coord → Nat → List EngineCall
  | [], _ => []
  | location :: rest, taken_actions =>
    let count := if upgrade then gs.attempt_upgrade location
      else gs.attempt_spawn unit_type location
    if taken_actions + count ≥ max_num then
      [⟨upgrade, unit_type, location⟩]
    else
      ⟨upgrade, unit_type, location⟩ ::
        attempt_action_calls gs upgrade unit_type max_num rest (taken_actions + count)

/-- `refresh_upgrade_all` (lines 111-129): remove any existing
`'upgrade_all'` action (the `try/except ValueError` is vacuous because
`remove_action` never raises); rebuild `all_defenses` as the concatenation
of the location lists of every non-upgrade action; re-append the synthetic
`'upgrade_all'` upgrade action over those locations with `max_num` 1 / 2 / 4
according to `turn_number < 10` / `< 15` / otherwise; clear `change_flag`. -/
def refresh_upgrade_all (gs : GameState) (u : Utility) : Utility :=
  let u1 := remove_action u "upgrade_all"
  let defenses := (u1.action_queue.filter (fun action => action.upgrade = false)).flatMap
    (fun action => action.locations)
  let u2 : Utility := { u1 with all_defenses := defenses }
  let u3 :=
    if gs.turn_number < 10 then
      append_action u2 "upgrade_all" "" defenses true 1
    else if gs.turn_number < 15 then
      append_action u2 "upgrade_all" "" defenses true 2
    else
      append_action u2 "upgrade_all" "" defenses true 4
  { u3 with change_flag := false }

/-- `attempt_actions` (lines 90-109): if `change_flag` is set, refresh the
synthetic upgrade-all action first; then execute every queued action against
the engine.  Returns the updated `Utility` state together with the full
trace of engine calls issued, in order. -/
def attempt_actions (gs : GameState) (u : Utility) : Utility × List EngineCall :=
  let u1 := if u.change_flag then refresh_upgrade_all gs u else u
  (u1, u1.action_queue.flatMap (fun action =>
    attempt_action_calls gs action.upgrade action.unit_type action.max_num action.locations 0))

/-- The inner loop of `least_damage_spawn_location` (`algo_strategy.py`
lines 259-261): the running sum
`damage += len(get_attackers(path_location, 0)) * damage_i` over the path,
starting from `damage = 0`. -/
def path_damage (gs : GameState) (path : List Coord) : Nat :=
  path.foldl (fun damage path_location =>
    damage + gs.get_attackers path_location * gs.turret_damage_i) 0

/-- The `damages` list built by `least_damage_spawn_location`
(lines 249-262): one entry per candidate that has a path, in candidate
order; candidates whose `find_path_to_edge` is `None` are skipped
(`continue`). -/
def damagesOf (gs : GameState) (location_options : List Coord) : List Nat :=
  location_options.filterMap (fun location =>
    (gs.find_path_to_edge location).map (fun path => path_damage gs path))

/-- `least_damage_spawn_location` (`algo_strategy.py` lines 243-265):
build `damages`, then evaluate
`location_options[damages.index(min(damages))]` — note the index into the
*compacted* `damages` list is applied to the *full* candidate list.  `min`
of an empty list raises `ValueError`, modelled as `none`. -/
def least_damage_spawn_location (gs : GameState) (location_options : List Coord) :
    Option Coord :=
  match (damagesOf gs location_options).min? with
  | none => none
  | some m => location_options[(damagesOf gs location_options).indexOf m]?

/-- The damage score of a route as the specification words it: the sum over
every cell of the route of (number of defenders able to hit that cell)
times the fixed per-hit turret damage constant. -/
def spec_route_damage (gs : GameState) (path : List Coord) : Nat :=
  (path.map (fun p => gs.get_attackers p * gs.turret_damage_i)).sum

/-- C9: round-trip of the coordinate codec on the valid 28×28 range,
and the injectivity it implies. -/
theorem point_hash_roundtrip :
    (∀ c : Coord, c.1 < ARENA_SIZE → c.2 < ARENA_SIZE →
      inv_point_hash (point_hash c) = c) ∧
    (∀ c c' : Coord, c.1 < ARENA_SIZE → c.2 < ARENA_SIZE →
      c'.1 < ARENA_SIZE → c'.2 < ARENA_SIZE →
      point_hash c = point_hash c' → c = c') := by
  constructor
  · rintro ⟨x, y⟩ hx hy
    simp only [ARENA_SIZE] at hx hy
    simp only [point_hash, inv_point_hash, ARENA_SIZE, Prod.mk.injEq]
    omega
  · rintro ⟨x, y⟩ ⟨x', y'⟩ hx hy hx' hy' h
    simp only [point_hash, ARENA_SIZE] at h
    simp only [ARENA_SIZE] at hx hy hx' hy'
    have : x = x' ∧ y = y' := by omega
    simp [this.1, this.2]

/-- Witness for C9 at the concrete coordinate (5, 7). -/
theorem point_hash_roundtrip_witness :
    inv_point_hash (point_hash (5, 7)) = (5, 7) :=
  point_hash_roundtrip.1 (5, 7) (by decide) (by decide)

/-- Erasing at the index found by `findIdx?` (with the not-found case a no-op)
is exactly `eraseP`. -/
theorem eraseIdx_findIdx?_eq_eraseP {α : Type} (p : α → Bool) (l : List α) :
    (match l.findIdx? p with
      | none => l
      | some index => l.eraseIdx index) = l.eraseP p := by
  induction l with
  | nil => rfl
  | cons a l ih =>
    by_cases h : p a = true
    · simp [List.findIdx?_cons, h]
    · rw [List.findIdx?_cons, if_neg (by simp [h]), List.findIdx?_succ,
        List.eraseP_cons_of_neg (by simp [h])]
      cases hfi : l.findIdx? p with
      | none =>
        rw [hfi] at ih
        simpa using ih
      | some i =>
        rw [hfi] at ih
        simpa using congrArg (List.cons a) ih

/-- `remove_action` deletes the first action whose id matches (no-op when
none does) and leaves `all_defenses` untouched. -/
theorem remove_action_eq (u : Utility) (id : String) :
    (remove_action u id).action_queue = u.action_queue.eraseP (fun a => a.id == id) ∧
    (remove_action u id).all_defenses = u.all_defenses := by
  have h := eraseIdx_findIdx?_eq_eraseP (fun a : Action => a.id == id) u.action_queue
  unfold remove_action
  cases hfi : u.action_queue.findIdx? (fun a => a.id == id) with
  | none => rw [hfi] at h; exact ⟨h, rfl⟩
  | some i => rw [hfi] at h; exact ⟨h, rfl⟩

/-- C8: `remove_action` with an absent id is a silent no-op leaving the
whole state (queue and dirty flag included) unchanged; with a present id it
sets the dirty flag and deletes exactly the first action carrying that id,
leaving everything else (including `all_defenses`) as it was. -/
theorem remove_action_spec (u : Utility) (id : String) :
    ((∀ a ∈ u.action_queue, a.id ≠ id) → remove_action u id = u) ∧
    ((∃ a ∈ u.action_queue, a.id = id) →
      (remove_action u id).change_flag = true ∧
      (remove_action u id).all_defenses = u.all_defenses ∧
      ∃ i, ∃ hi : i < u.action_queue.length,
        (u.action_queue.get ⟨i, hi⟩).id = id ∧
        (∀ j, ∀ hj : j < i, (u.action_queue.get ⟨j, Nat.lt_trans hj hi⟩).id ≠ id) ∧
        (remove_action u id).action_queue = u.action_queue.eraseIdx i) := by
  unfold remove_action
  cases hfi : u.action_queue.findIdx? (fun entry => entry.id == id) with
  | none =>
    rw [List.findIdx?_eq_none_iff] at hfi
    refine ⟨fun _ => rfl, fun ⟨a, ha, hid⟩ => absurd (hfi a ha) (by simp [hid])⟩
  | some i =>
    rw [List.findIdx?_eq_some_iff_getElem] at hfi
    obtain ⟨hi, hpi, hbefore⟩ := hfi
    constructor
    · intro hall
      exact absurd (by simpa using hpi) (hall _ (u.action_queue.getElem_mem hi))
    · intro _
      refine ⟨rfl, rfl, i, hi, by simpa using hpi, ?_, rfl⟩
      intro j hj
      simpa using hbefore j hj

/-- Witness for C8: removing a missing id from a one-action queue changes
nothing. -/
theorem remove_action_spec_witness :
    remove_action ⟨[⟨"x", "W", [(1, 1)], false, 5⟩], [], false⟩ "y"
      = ⟨[⟨"x", "W", [(1, 1)], false, 5⟩], [], false⟩ :=
  (remove_action_spec ⟨[⟨"x", "W", [(1, 1)], false, 5⟩], [], false⟩ "y").1 (by decide)

/-- Behaviour of `prioritize_action`: failure exactly when the id is
absent; on success the first matching action is moved to the head, the
rest keeping their relative order. -/
theorem prioritize_action_eq (u : Utility) (id : String) :
    (prioritize_action u id = none ↔ ∀ a ∈ u.action_queue, a.id ≠ id) ∧
    (∀ u', prioritize_action u id = some u' →
      u'.change_flag = true ∧
      u'.all_defenses = u.all_defenses ∧
      ∃ i, ∃ hi : i < u.action_queue.length,
        (u.action_queue.get ⟨i, hi⟩).id = id ∧
        u'.action_queue = u.action_queue.get ⟨i, hi⟩ :: u.action_queue.eraseIdx i) := by
  unfold prioritize_action
  cases hfi : u.action_queue.findIdx? (fun entry => entry.id == id) with
  | none =>
    rw [List.findIdx?_eq_none_iff] at hfi
    constructor
    · exact ⟨fun _ a ha => by simpa using hfi a ha, fun _ => rfl⟩
    · intro u' h
      exact absurd h (by simp)
  | some i =>
    rw [List.findIdx?_eq_some_iff_getElem] at hfi
    obtain ⟨hi, hpi, _⟩ := hfi
    simp only [List.getElem?_eq_getElem hi]
    constructor
    · constructor
      · intro h
        exact absurd h (by simp)
      · intro hall
        exact absurd (by simpa using hpi) (hall _ (u.action_queue.getElem_mem hi))
    · intro u' h
      obtain rfl := Option.some.inj h
      refine ⟨rfl, rfl, i, hi, by simpa using hpi, by simp⟩

/-- C7: `prioritize_action` fails (raises `ValueError`, modelled by `none`)
exactly when no queued action carries the id; on success it sets the dirty
flag and moves the first action carrying the id to index 0, the remaining
actions keeping their relative order (the new queue is that action consed
onto the old queue with its position erased). -/
theorem prioritize_action_spec (u : Utility) (id : String) :
    (prioritize_action u id = none ↔ ∀ a ∈ u.action_queue, a.id ≠ id) ∧
    (∀ u', prioritize_action u id = some u' →
      u'.change_flag = true ∧
      u'.all_defenses = u.all_defenses ∧
      ∃ i, ∃ hi : i < u.action_queue.length,
        (u.action_queue.get ⟨i, hi⟩).id = id ∧
        u'.action_queue = u.action_queue.get ⟨i, hi⟩ :: u.action_queue.eraseIdx i) :=
  prioritize_action_eq u id

/-- Witness for C7: prioritizing a missing id fails. -/
theorem prioritize_action_spec_witness :
    prioritize_action ⟨[⟨"a", "W", [(0, 0)], false, 5⟩], [], false⟩ "missing" = none :=
  (prioritize_action_spec ⟨[⟨"a", "W", [(0, 0)], false, 5⟩], [], false⟩ "missing").1.mpr
    (by decide)

/-- Trimming never changes an action's id (it only rewrites `locations`). -/
theorem trim_step_id (upgrade : Bool) (S : List Nat) (a : Action) :
    (trim_step upgrade S a).id = a.id := by
  unfold trim_step trim_overlap
  split <;> rfl

/-- The state produced by `append_action`: the old queue is trimmed, the
first action carrying the id (if any) is erased, the new action is appended
at the tail; the dirty flag is set and `all_defenses` is untouched. -/
theorem append_action_spec (u : Utility) (id unit_type : String) (locations : List Coord)
    (upgrade : Bool) (max_num : Nat) :
    (append_action u id unit_type locations upgrade max_num).action_queue
      = ((u.action_queue.map (trim_step upgrade (locations.map point_hash).dedup)).eraseP
          (fun a => a.id == id)) ++ [⟨id, unit_type, locations, upgrade, max_num⟩] ∧
    (append_action u id unit_type locations upgrade max_num).change_flag = true ∧
    (append_action u id unit_type locations upgrade max_num).all_defenses = u.all_defenses := by
  simp only [append_action]
  by_cases h : (u.action_queue.map
      (trim_step upgrade (locations.map point_hash).dedup)).any (fun a => a.id == id)
  · simp only [h, if_pos]
    have hrem := remove_action_eq
      ⟨u.action_queue.map (trim_step upgrade (locations.map point_hash).dedup),
        u.all_defenses, u.change_flag⟩ id
    exact ⟨by rw [hrem.1], trivial, hrem.2⟩
  · rw [if_neg (by simpa using h)]
    rw [Bool.not_eq_true, List.any_eq_false] at h
    exact ⟨by rw [List.eraseP_of_forall_not (by simpa using h)], trivial, rfl⟩

/-- If at most one element of a list satisfies `p`, then after `eraseP p`
none does. -/
theorem filter_eraseP_of_countP_le_one {α : Type} (p : α → Bool) :
    ∀ l : List α, l.countP p ≤ 1 → (l.eraseP p).filter p = []
  | [], _ => rfl
  | a :: l, h => by
    by_cases ha : p a = true
    · rw [List.eraseP_cons_of_pos ha]
      rw [List.countP_cons_of_pos _ _ ha] at h
      rw [List.filter_eq_nil_iff]
      intro b hb
      have : l.countP p = 0 := by omega
      rw [List.countP_eq_zero] at this
      simpa using this b hb
    · rw [List.eraseP_cons_of_neg ha, List.filter_cons_of_neg (by simpa using ha)]
      rw [List.countP_cons_of_neg _ _ (by simpa using ha)] at h
      exact filter_eraseP_of_countP_le_one p l h

/-- C6: appending with an id already present (ids being unique in the queue)
replaces the prior action: afterwards exactly one action carries the id, it
holds exactly the newly passed cells, it sits at the tail of the queue, and
the dirty flag is set. -/
theorem append_action_overwrite (u : Utility) (id unit_type : String)
    (locations : List Coord) (upgrade : Bool) (max_num : Nat)
    (h : u.action_queue.countP (fun a => a.id == id) ≤ 1) :
    (append_action u id unit_type locations upgrade max_num).action_queue.filter
        (fun a => a.id == id) = [⟨id, unit_type, locations, upgrade, max_num⟩] ∧
    (append_action u id unit_type locations upgrade max_num).action_queue.getLast?
      = some ⟨id, unit_type, locations, upgrade, max_num⟩ ∧
    (append_action u id unit_type locations upgrade max_num).change_flag = true := by
  obtain ⟨hq, hf, -⟩ := append_action_spec u id unit_type locations upgrade max_num
  rw [hq]
  have hcount : (u.action_queue.map
      (trim_step upgrade (locations.map point_hash).dedup)).countP (fun a => a.id == id) ≤ 1 := by
    rw [List.countP_map]
    have hfn : ((fun a : Action => a.id == id) ∘
        trim_step upgrade (locations.map point_hash).dedup) = fun a : Action => a.id == id := by
      funext a
      simp [Function.comp, trim_step_id]
    rw [hfn]
    exact h
  refine ⟨?_, ?_, hf⟩
  · rw [List.filter_append, filter_eraseP_of_countP_le_one _ _ hcount]
    simp
  · rw [List.getLast?_concat]

/-- Witness for C6: overwriting the single action "x" leaves exactly the new
"x" action in the queue. -/
theorem append_action_overwrite_witness :
    (append_action ⟨[⟨"x", "W", [(1, 1)], false, 9999⟩], [], false⟩
        "x" "T" [(2, 2)] false 3).action_queue.filter (fun a => a.id == "x")
      = [⟨"x", "T", [(2, 2)], false, 3⟩] :=
  (append_action_overwrite ⟨[⟨"x", "W", [(1, 1)], false, 9999⟩], [], false⟩
    "x" "T" [(2, 2)] false 3 (by decide)).1

/-- C5: the executor walks an action's cells in listed order (its engine-call
trace is always the image of a prefix of the cell list), and for a placement
action with `max_num = 2` over five cells whose every spawn attempt returns
count 1, one `attempt_actions` pass issues exactly the two engine calls for
the first two cells: the remaining three cells are not attempted. -/
theorem attempt_actions_execution_cap (gs : GameState) (unit_type aid : String) :
    (∀ (max_num : Nat) (locations : List Coord) (taken : Nat), ∃ k,
      attempt_action_calls gs false unit_type max_num locations taken
        = (locations.take k).map (fun p => ⟨false, unit_type, p⟩)) ∧
    (∀ p1 p2 p3 p4 p5 : Coord, ∀ defs : List Coord,
      (∀ p ∈ [p1, p2, p3, p4, p5], gs.attempt_spawn unit_type p = 1) →
      (attempt_actions gs
          ⟨[⟨aid, unit_type, [p1, p2, p3, p4, p5], false, 2⟩], defs, false⟩).2
        = [⟨false, unit_type, p1⟩, ⟨false, unit_type, p2⟩]) := by
  constructor
  · intro max_num locations
    induction locations with
    | nil => exact fun _ => ⟨0, rfl⟩
    | cons p rest ih =>
      intro taken
      simp only [attempt_action_calls, Bool.false_eq_true, if_false]
      by_cases hstop : taken + gs.attempt_spawn unit_type p ≥ max_num
      · exact ⟨1, by simp [hstop]⟩
      · obtain ⟨k, hk⟩ := ih (taken + gs.attempt_spawn unit_type p)
        exact ⟨k + 1, by simp [hstop, hk]⟩
  · intro p1 p2 p3 p4 p5 defs h
    have e1 := h p1 (by simp)
    have e2 := h p2 (by simp)
    simp [attempt_actions, attempt_action_calls, e1, e2]

/-- Witness for C5 with a concrete engine that always places one unit. -/
theorem attempt_actions_execution_cap_witness :
    (attempt_actions
        ⟨0, fun _ _ => 1, fun _ => 0, fun _ => none, fun _ => 0, 0⟩
        ⟨[⟨"a", "W", [(0, 0), (1, 0), (2, 0), (3, 0), (4, 0)], false, 2⟩], [], false⟩).2
      = [⟨false, "W", (0, 0)⟩, ⟨false, "W", (1, 0)⟩] :=
  (attempt_actions_execution_cap
      ⟨0, fun _ _ => 1, fun _ => 0, fun _ => none, fun _ => 0, 0⟩ "W" "a").2
    (0, 0) (1, 0) (2, 0) (3, 0) (4, 0) [] (fun _ _ => rfl)

/-- The location list `refresh_upgrade_all` rebuilds (lines 116-120): the
plain concatenation, in queue order, of the location lists of every
non-upgrade action. -/
def queue_defenses (q : List Action) : List Coord :=
  (q.filter (fun action => action.upgrade = false)).flatMap (fun action => action.locations)

/-- The turn-number schedule for the synthetic action's `max_num`
(lines 122-127). -/
def upgrade_all_cap (turn_number : Nat) : Nat :=
  if turn_number < 10 then 1 else if turn_number < 15 then 2 else 4

/-- Appending an upgrade action never trims anything. -/
theorem trim_step_upgrade (S : List Nat) (a : Action) : trim_step true S a = a := by
  unfold trim_step
  simp

/-- Full state produced by `append_action` for an upgrade action whose id is
absent from the queue: the action is appended unchanged and nothing else
moves. -/
theorem append_action_upgrade_state (u2 : Utility) (id ut : String) (locs : List Coord)
    (cap : Nat) (hnone : ∀ a ∈ u2.action_queue, ¬(a.id == id) = true) :
    append_action u2 id ut locs true cap =
      ⟨u2.action_queue ++ [⟨id, ut, locs, true, cap⟩], u2.all_defenses, true⟩ := by
  obtain ⟨hq, hf, hd⟩ := append_action_spec u2 id ut locs true cap
  have e : append_action u2 id ut locs true cap =
      ⟨(append_action u2 id ut locs true cap).action_queue,
        (append_action u2 id ut locs true cap).all_defenses,
        (append_action u2 id ut locs true cap).change_flag⟩ := rfl
  rw [e, hf, hd, hq]
  have hm : u2.action_queue.map (trim_step true (locs.map point_hash).dedup)
      = u2.action_queue :=
    List.map_id'' (trim_step_upgrade _) u2.action_queue
  rw [hm, List.eraseP_of_forall_not hnone]

/-- Full state produced by `refresh_upgrade_all` when at most one queued
action carries the reserved id: the first `'upgrade_all'` entry (if any) is
erased, `all_defenses` becomes the concatenation of the remaining
non-upgrade actions' locations, the synthetic upgrade action over exactly
those locations is appended at the tail with the turn-scheduled cap, and
the dirty flag ends cleared. -/
theorem refresh_upgrade_all_spec (gs : GameState) (u : Utility)
    (h : u.action_queue.countP (fun a => a.id == "upgrade_all") ≤ 1) :
    refresh_upgrade_all gs u =
      ⟨(u.action_queue.eraseP (fun a => a.id == "upgrade_all")) ++
          [⟨"upgrade_all", "",
            queue_defenses (u.action_queue.eraseP (fun a => a.id == "upgrade_all")),
            true, upgrade_all_cap gs.turn_number⟩],
        queue_defenses (u.action_queue.eraseP (fun a => a.id == "upgrade_all")),
        false⟩ := by
  obtain ⟨hq1, hd1⟩ := remove_action_eq u "upgrade_all"
  have hnone : ∀ a ∈ (u.action_queue.eraseP (fun a => a.id == "upgrade_all")),
      ¬(a.id == "upgrade_all") = true := by
    have hfil := filter_eraseP_of_countP_le_one (fun a : Action => a.id == "upgrade_all")
      u.action_queue h
    rw [List.filter_eq_nil_iff] at hfil
    exact hfil
  have hrem : remove_action u "upgrade_all" =
      ⟨u.action_queue.eraseP (fun a => a.id == "upgrade_all"), u.all_defenses,
        (remove_action u "upgrade_all").change_flag⟩ := by
    conv_lhs => rw [show remove_action u "upgrade_all" =
      ⟨(remove_action u "upgrade_all").action_queue,
        (remove_action u "upgrade_all").all_defenses,
        (remove_action u "upgrade_all").change_flag⟩ from rfl]
    rw [hq1, hd1]
  simp only [refresh_upgrade_all]
  rw [hrem]
  simp only [queue_defenses]
  by_cases h10 : gs.turn_number < 10
  · rw [show upgrade_all_cap gs.turn_number = 1 from by simp [upgrade_all_cap, h10]]
    rw [if_pos h10, append_action_upgrade_state _ _ _ _ _ hnone]
  · by_cases h15 : gs.turn_number < 15
    · rw [show upgrade_all_cap gs.turn_number = 2 from by
        simp [upgrade_all_cap, h10, h15]]
      rw [if_neg h10, if_pos h15, append_action_upgrade_state _ _ _ _ _ hnone]
    · rw [show upgrade_all_cap gs.turn_number = 4 from by
        simp [upgrade_all_cap, h10, h15]]
      rw [if_neg h10, if_neg h15, append_action_upgrade_state _ _ _ _ _ hnone]

/-- Counterexample to C2's deduplication clause: appending a placement
action whose own cell list repeats the cell (1, 1) and then executing with
the dirty flag set yields a synthetic `'upgrade_all'` action whose target
cells keep the duplicate — they are not deduplicated by encoded
coordinate. -/
theorem attempt_actions_dedup_counterexample :
    (attempt_actions ⟨0, fun _ _ => 0, fun _ => 0, fun _ => none, fun _ => 0, 0⟩
        (append_action utilityInit "a" "W" [(1, 1), (1, 1)] false 9999)).1.action_queue
      = [⟨"a", "W", [(1, 1), (1, 1)], false, 9999⟩,
          ⟨"upgrade_all", "", [(1, 1), (1, 1)], true, 1⟩] ∧
    ¬(([(1, 1), (1, 1)] : List Coord).map point_hash).Nodup := by
  constructor
  · decide
  · decide

/-- C2 (amended): executing with the dirty flag set (ids unique for the
reserved id) removes the existing `'upgrade_all'` action (tolerantly),
recomputes its target cells as the plain concatenation — not deduplicated —
in queue order of the cells of every non-upgrade action remaining in the
queue, gives it cap 1 / 2 / 4 for `turn_number < 10` / `< 15` / otherwise,
appends it at the tail, and clears the dirty flag. -/
theorem attempt_actions_refresh (gs : GameState) (u : Utility)
    (hdirty : u.change_flag = true)
    (hcount : u.action_queue.countP (fun a => a.id == "upgrade_all") ≤ 1) :
    (attempt_actions gs u).1 =
      ⟨(u.action_queue.eraseP (fun a => a.id == "upgrade_all")) ++
          [⟨"upgrade_all", "",
            queue_defenses (u.action_queue.eraseP (fun a => a.id == "upgrade_all")),
            true, upgrade_all_cap gs.turn_number⟩],
        queue_defenses (u.action_queue.eraseP (fun a => a.id == "upgrade_all")),
        false⟩ := by
  have h : (attempt_actions gs u).1 = refresh_upgrade_all gs u := by
    simp [attempt_actions, hdirty]
  rw [h, refresh_upgrade_all_spec gs u hcount]

/-- Witness for C2 (amended) at turn 12 (cap 2) on a one-action queue. -/
theorem attempt_actions_refresh_witness :
    (attempt_actions ⟨12, fun _ _ => 0, fun _ => 0, fun _ => none, fun _ => 0, 0⟩
        ⟨[⟨"a", "W", [(1, 1)], false, 9999⟩], [], true⟩).1
      = ⟨[⟨"a", "W", [(1, 1)], false, 9999⟩, ⟨"upgrade_all", "", [(1, 1)], true, 2⟩],
          [(1, 1)], false⟩ :=
  (attempt_actions_refresh ⟨12, fun _ _ => 0, fun _ => 0, fun _ => none, fun _ => 0, 0⟩
      ⟨[⟨"a", "W", [(1, 1)], false, 9999⟩], [], true⟩ rfl (by decide)).trans (by decide)

/-- C10: `attempt_actions` with a clean flag leaves the whole state
untouched; with a dirty flag (and the reserved id unique) the only queue
change is erasing the first `'upgrade_all'` entry and appending the freshly
synthesized one at the tail; and the flag is clear afterwards in every
case. -/
theorem attempt_actions_frame (gs : GameState) (u : Utility)
    (hcount : u.action_queue.countP (fun a => a.id == "upgrade_all") ≤ 1) :
    (u.change_flag = false → (attempt_actions gs u).1 = u) ∧
    (u.change_flag = true →
      (attempt_actions gs u).1.action_queue
        = (u.action_queue.eraseP (fun a => a.id == "upgrade_all")) ++
            [⟨"upgrade_all", "",
              queue_defenses (u.action_queue.eraseP (fun a => a.id == "upgrade_all")),
              true, upgrade_all_cap gs.turn_number⟩]) ∧
    (attempt_actions gs u).1.change_flag = false := by
  refine ⟨fun hclean => by simp [attempt_actions, hclean], fun hdirty => ?_, ?_⟩
  · have h : (attempt_actions gs u).1 = refresh_upgrade_all gs u := by
      simp [attempt_actions, hdirty]
    rw [h, refresh_upgrade_all_spec gs u hcount]
  · cases hflag : u.change_flag with
    | false => simp [attempt_actions, hflag]
    | true =>
      have h : (attempt_actions gs u).1 = refresh_upgrade_all gs u := by
        simp [attempt_actions, hflag]
      rw [h, refresh_upgrade_all_spec gs u hcount]

/-- Witness for C10: a clean queue passes through `attempt_actions`
unchanged. -/
theorem attempt_actions_frame_witness :
    (attempt_actions ⟨3, fun _ _ => 1, fun _ => 1, fun _ => none, fun _ => 0, 0⟩
        ⟨[⟨"a", "W", [(1, 1)], false, 9999⟩], [], false⟩).1
      = ⟨[⟨"a", "W", [(1, 1)], false, 9999⟩], [], false⟩ :=
  (attempt_actions_frame ⟨3, fun _ _ => 1, fun _ => 1, fun _ => none, fun _ => 0, 0⟩
      ⟨[⟨"a", "W", [(1, 1)], false, 9999⟩], [], false⟩ (by decide)).1 rfl

/-- Positions strictly before `indexOf a` do not hold `a`. -/
theorem get_ne_of_lt_indexOf {α : Type} [DecidableEq α] :
    ∀ (l : List α) (a : α) (j : Nat) (hjl : j < l.length),
      j < l.indexOf a → l.get ⟨j, hjl⟩ ≠ a
  | [], _, j, hjl, _ => absurd hjl (by simp)
  | b :: l, a, j, hjl, hj => by
    by_cases hba : b = a
    · rw [hba, List.indexOf_cons_self] at hj
      exact absurd hj (Nat.not_lt_zero j)
    · rw [List.indexOf_cons_ne _ hba] at hj
      cases j with
      | zero => simpa using hba
      | succ j =>
        have hrec := get_ne_of_lt_indexOf l a j (by simpa using hjl)
          (Nat.lt_of_succ_lt_succ hj)
        simpa using hrec

/-- When the damage list has a minimum `m`, the selector returns the
candidate sitting at index `indexOf m` — an index computed in the compacted
damage list but applied to the full candidate list. -/
theorem least_damage_eq_of_min (gs : GameState) (opts : List Coord) (m : Nat)
    (hm : (damagesOf gs opts).min? = some m) :
    ∃ hi : (damagesOf gs opts).indexOf m < opts.length,
      least_damage_spawn_location gs opts
        = some (opts.get ⟨(damagesOf gs opts).indexOf m, hi⟩) := by
  have hmem : m ∈ damagesOf gs opts := (List.min?_eq_some_iff'.mp hm).1
  have hlt : (damagesOf gs opts).indexOf m < (damagesOf gs opts).length :=
    List.indexOf_lt_length.mpr hmem
  have hle : (damagesOf gs opts).length ≤ opts.length :=
    List.length_filterMap_le _ _
  have hi : (damagesOf gs opts).indexOf m < opts.length := Nat.lt_of_lt_of_le hlt hle
  refine ⟨hi, ?_⟩
  simp only [least_damage_spawn_location, hm]
  rw [List.getElem?_eq_getElem hi]
  simp

/-- The damage list is empty exactly when no candidate has a route. -/
theorem damagesOf_eq_nil_iff (gs : GameState) (opts : List Coord) :
    damagesOf gs opts = [] ↔ ∀ loc ∈ opts, gs.find_path_to_edge loc = none := by
  unfold damagesOf
  rw [List.filterMap_eq_nil_iff]
  constructor
  · intro h loc hl
    simpa [Option.map_eq_none'] using h loc hl
  · intro h loc hl
    simp [h loc hl]

/-- C1 (amended): the call fails (`min` of an empty list raises, modelled
by `none`) exactly when every candidate has no route; and whenever every
candidate has a route (and there is at least one), the returned value is
one of the candidates.  (The original claim's stronger clauses — that a
route-less candidate is never returned, and that a sole routed candidate is
returned — fail: see the counterexample, where the index into the compacted
damage list is applied to the full candidate list.) -/
theorem least_damage_spawn_location_spec (gs : GameState) (opts : List Coord) :
    (least_damage_spawn_location gs opts = none ↔
      ∀ loc ∈ opts, gs.find_path_to_edge loc = none) ∧
    ((∀ loc ∈ opts, (gs.find_path_to_edge loc).isSome = true) → opts ≠ [] →
      ∃ c ∈ opts, least_damage_spawn_location gs opts = some c) := by
  constructor
  · constructor
    · intro hres
      by_contra hc
      push_neg at hc
      obtain ⟨loc, hl, hfind⟩ := hc
      have hne : damagesOf gs opts ≠ [] := fun h0 =>
        hfind (((damagesOf_eq_nil_iff gs opts).mp h0) loc hl)
      obtain ⟨m, hm⟩ := Option.ne_none_iff_exists'.mp
        (fun h0 => hne (List.min?_eq_none_iff.mp h0))
      obtain ⟨hi, heq⟩ := least_damage_eq_of_min gs opts m hm
      rw [heq] at hres
      exact Option.noConfusion hres
    · intro hall
      simp only [least_damage_spawn_location,
        List.min?_eq_none_iff.mpr ((damagesOf_eq_nil_iff gs opts).mpr hall)]
  · intro hall hne
    have hdne : damagesOf gs opts ≠ [] := by
      cases opts with
      | nil => exact absurd rfl hne
      | cons x rest =>
        intro h0
        have hx := (damagesOf_eq_nil_iff gs _).mp h0 x (by simp)
        have hs := hall x (by simp)
        rw [hx] at hs
        simp at hs
    obtain ⟨m, hm⟩ := Option.ne_none_iff_exists'.mp
      (fun h0 => hdne (List.min?_eq_none_iff.mp h0))
    obtain ⟨hi, heq⟩ := least_damage_eq_of_min gs opts m hm
    exact ⟨_, opts.get_mem _ hi, heq⟩

/-- Witness for C1 (amended): with no routes at all the selector fails. -/
theorem least_damage_spawn_location_spec_witness :
    least_damage_spawn_location
      ⟨0, fun _ _ => 0, fun _ => 0, fun _ => none, fun _ => 0, 1⟩ [(3, 4)] = none :=
  (least_damage_spawn_location_spec
      ⟨0, fun _ _ => 0, fun _ => 0, fun _ => none, fun _ => 0, 1⟩ [(3, 4)]).1.mpr
    (fun _ _ => rfl)

/-- Counterexample to C1 as stated: with candidates [(0,0), (1,1)] where
(0,0) has no route and (1,1) is the sole routed candidate, the selector
returns (0,0) — a route-less candidate is returned, and the sole routed
candidate is not. -/
theorem least_damage_spawn_location_counterexample :
    least_damage_spawn_location
        ⟨0, fun _ _ => 0, fun _ => 0,
          fun p => if p = (1, 1) then some [] else none, fun _ => 0, 1⟩
        [(0, 0), (1, 1)] = some (0, 0) ∧
    (if ((0, 0) : Coord) = (1, 1) then some ([] : List Coord) else none) = none := by
  exact ⟨by decide, by decide⟩

/-- The executor's running damage sum equals the start value plus the sum of
the per-cell contributions. -/
theorem foldl_damage_eq_sum (gs : GameState) :
    ∀ (l : List Coord) (n : Nat),
      l.foldl (fun damage p => damage + gs.get_attackers p * gs.turret_damage_i) n
        = n + (l.map (fun p => gs.get_attackers p * gs.turret_damage_i)).sum
  | [], n => by simp
  | p :: l, n => by
    simp only [List.foldl_cons, List.map_cons, List.sum_cons]
    rw [foldl_damage_eq_sum gs l (n + gs.get_attackers p * gs.turret_damage_i)]
    omega

/-- The code's running-sum damage of a route equals the specification's
formula: the sum over every cell of the route of (defenders able to hit the
cell) × (fixed turret per-hit damage constant). -/
theorem path_damage_eq_spec (gs : GameState) (path : List Coord) :
    path_damage gs path = spec_route_damage gs path := by
  unfold path_damage spec_route_damage
  rw [foldl_damage_eq_sum]
  simp

/-- When every candidate has a route, the damage list lines up with the
candidate list entry by entry. -/
theorem damagesOf_eq_map_of_routes (gs : GameState) :
    ∀ opts : List Coord, (∀ loc ∈ opts, (gs.find_path_to_edge loc).isSome = true) →
      damagesOf gs opts
        = opts.map (fun loc => path_damage gs ((gs.find_path_to_edge loc).getD []))
  | [], _ => rfl
  | x :: rest, h => by
    obtain ⟨path, hp⟩ := Option.isSome_iff_exists.mp (h x (by simp))
    have ih := damagesOf_eq_map_of_routes gs rest (fun loc hl => h loc (by simp [hl]))
    simp only [damagesOf] at ih ⊢
    simp [List.filterMap_cons, hp, ih]

/-- Selecting the first index of the minimum of a mapped list: the value
there is minimal, and every strictly earlier position is strictly worse. -/
theorem min?_indexOf_spec (opts : List Coord) (g : Coord → Nat) (m : Nat)
    (hm : (opts.map g).min? = some m) :
    ∃ hi : (opts.map g).indexOf m < opts.length,
      g (opts.get ⟨(opts.map g).indexOf m, hi⟩) = m ∧
      (∀ loc ∈ opts, m ≤ g loc) ∧
      (∀ j, ∀ hj : j < (opts.map g).indexOf m,
        m < g (opts.get ⟨j, Nat.lt_trans hj hi⟩)) := by
  obtain ⟨hmem, hmin⟩ := List.min?_eq_some_iff'.mp hm
  have hlt : (opts.map g).indexOf m < (opts.map g).length :=
    List.indexOf_lt_length.mpr hmem
  have hi : (opts.map g).indexOf m < opts.length := by
    simpa using hlt
  refine ⟨hi, ?_, ?_, ?_⟩
  · have h1 : (opts.map g).get ⟨(opts.map g).indexOf m, hlt⟩ = m :=
      List.indexOf_get hlt
    rw [List.get_eq_getElem, List.getElem_map] at h1
    simp only [List.get_eq_getElem]
    exact h1
  · intro loc hl
    exact hmin (g loc) (List.mem_map_of_mem g hl)
  · intro j hj
    have hj2 : j < (opts.map g).length := Nat.lt_trans hj hlt
    have hne := get_ne_of_lt_indexOf (opts.map g) m j hj2 hj
    have hle := hmin ((opts.map g).get ⟨j, hj2⟩) (List.get_mem _ _ hj2)
    have hval : (opts.map g).get ⟨j, hj2⟩ = g (opts.get ⟨j, Nat.lt_trans hj hi⟩) := by
      simp
    rw [hval] at hne hle
    exact Nat.lt_of_le_of_ne hle (fun he => hne he.symm)

/-- C4: when every candidate has a route, each candidate's damage score is
the sum over every cell of its route of (number of defenders able to hit
that cell) × (fixed turret per-hit damage constant), and the selector
returns the candidate with the smallest total damage, ties broken by input
order — every strictly earlier candidate scores strictly worse. -/
theorem least_damage_minimal (gs : GameState) (opts : List Coord)
    (hroutes : ∀ loc ∈ opts, (gs.find_path_to_edge loc).isSome = true)
    (hne : opts ≠ []) :
    (∀ path : List Coord, path_damage gs path = spec_route_damage gs path) ∧
    ∃ i, ∃ hi : i < opts.length,
      least_damage_spawn_location gs opts = some (opts.get ⟨i, hi⟩) ∧
      (∀ loc ∈ opts,
        spec_route_damage gs ((gs.find_path_to_edge (opts.get ⟨i, hi⟩)).getD [])
          ≤ spec_route_damage gs ((gs.find_path_to_edge loc).getD [])) ∧
      (∀ j, ∀ hj : j < i,
        spec_route_damage gs ((gs.find_path_to_edge (opts.get ⟨i, hi⟩)).getD [])
          < spec_route_damage gs
              ((gs.find_path_to_edge (opts.get ⟨j, Nat.lt_trans hj hi⟩)).getD [])) := by
  refine ⟨path_damage_eq_spec gs, ?_⟩
  have hconv : ∀ loc : Coord,
      spec_route_damage gs ((gs.find_path_to_edge loc).getD [])
        = path_damage gs ((gs.find_path_to_edge loc).getD []) :=
    fun loc => (path_damage_eq_spec gs _).symm
  have hmap := damagesOf_eq_map_of_routes gs opts hroutes
  have hdne : damagesOf gs opts ≠ [] := by
    rw [hmap]
    simpa using hne
  obtain ⟨m, hm⟩ := Option.ne_none_iff_exists'.mp
    (fun h0 => hdne (List.min?_eq_none_iff.mp h0))
  have hm' : (opts.map
      (fun loc => path_damage gs ((gs.find_path_to_edge loc).getD []))).min? = some m := by
    rw [← hmap]
    exact hm
  obtain ⟨hi, hgi, hminle, hstrict⟩ := min?_indexOf_spec opts
    (fun loc => path_damage gs ((gs.find_path_to_edge loc).getD [])) m hm'
  obtain ⟨hi0, heq⟩ := least_damage_eq_of_min gs opts m hm
  have hidx : (damagesOf gs opts).indexOf m
      = (opts.map (fun loc => path_damage gs ((gs.find_path_to_edge loc).getD []))).indexOf m := by
    rw [hmap]
  have hgets : opts.get ⟨(damagesOf gs opts).indexOf m, hi0⟩
      = opts.get ⟨(opts.map
          (fun loc => path_damage gs ((gs.find_path_to_edge loc).getD []))).indexOf m, hi⟩ := by
    congr 1
    exact Fin.ext hidx
  refine ⟨(opts.map
      (fun loc => path_damage gs ((gs.find_path_to_edge loc).getD []))).indexOf m, hi,
    ?_, ?_, ?_⟩
  · rw [heq, hgets]
  · intro loc hl
    rw [hconv, hconv, hgi]
    exact hminle loc hl
  · intro j hj
    rw [hconv, hconv, hgi]
    exact hstrict j hj

/-- Witness for C4: with routes `[p]` for each candidate `p`, attacker count
`x` at `(x, y)` and damage constant 1, the selector picks (1, 0) out of
[(2, 0), (1, 0)]. -/
theorem least_damage_minimal_witness :
    (∀ path : List Coord,
      path_damage ⟨0, fun _ _ => 0, fun _ => 0, fun p => some [p], fun p => p.1, 1⟩ path
        = spec_route_damage
            ⟨0, fun _ _ => 0, fun _ => 0, fun p => some [p], fun p => p.1, 1⟩ path) ∧
    ∃ i, ∃ hi : i < ([(2, 0), (1, 0)] : List Coord).length,
      least_damage_spawn_location
          ⟨0, fun _ _ => 0, fun _ => 0, fun p => some [p], fun p => p.1, 1⟩
          [(2, 0), (1, 0)]
        = some (([(2, 0), (1, 0)] : List Coord).get ⟨i, hi⟩) ∧
      (∀ loc ∈ ([(2, 0), (1, 0)] : List Coord),
        spec_route_damage ⟨0, fun _ _ => 0, fun _ => 0, fun p => some [p], fun p => p.1, 1⟩
            ((Option.some [([(2, 0), (1, 0)] : List Coord).get ⟨i, hi⟩]).getD [])
          ≤ spec_route_damage ⟨0, fun _ _ => 0, fun _ => 0, fun p => some [p], fun p => p.1, 1⟩
              ((Option.some [loc]).getD [])) ∧
      (∀ j, ∀ hj : j < i,
        spec_route_damage ⟨0, fun _ _ => 0, fun _ => 0, fun p => some [p], fun p => p.1, 1⟩
            ((Option.some [([(2, 0), (1, 0)] : List Coord).get ⟨i, hi⟩]).getD [])
          < spec_route_damage ⟨0, fun _ _ => 0, fun _ => 0, fun p => some [p], fun p => p.1, 1⟩
              ((Option.some [([(2, 0), (1, 0)] : List Coord).get
                  ⟨j, Nat.lt_trans hj hi⟩]).getD [])) :=
  least_damage_minimal ⟨0, fun _ _ => 0, fun _ => 0, fun p => some [p], fun p => p.1, 1⟩
    [(2, 0), (1, 0)] (fun _ _ => rfl) (by decide)

/-- A coordinate inside the 28×28 arena (the valid coordinate range of the
specification's data model). -/
def validCoord (p : Coord) : Prop :=
  p.1 < ARENA_SIZE ∧ p.2 < ARENA_SIZE

instance (p : Coord) : Decidable (validCoord p) :=
  inferInstanceAs (Decidable (p.1 < ARENA_SIZE ∧ p.2 < ARENA_SIZE))

/-- The codec also round-trips the other way on every key. -/
theorem point_hash_inv (h : Nat) : point_hash (inv_point_hash h) = h := by
  simp only [point_hash, inv_point_hash, ARENA_SIZE]
  omega

/-- Two queue entries do not both claim a cell as placements: either one of
them is an upgrade action, or their location lists are disjoint. -/
def placementDisjoint (a b : Action) : Prop :=
  a.upgrade = true ∨ b.upgrade = true ∨ ∀ p ∈ a.locations, p ∉ b.locations

instance (a b : Action) : Decidable (placementDisjoint a b) :=
  inferInstanceAs (Decidable
    (a.upgrade = true ∨ b.upgrade = true ∨ ∀ p ∈ a.locations, p ∉ b.locations))

theorem placementDisjoint_symm : ∀ {a b : Action},
    placementDisjoint a b → placementDisjoint b a := by
  intro a b h
  rcases h with h | h | h
  · exact Or.inr (Or.inl h)
  · exact Or.inl h
  · exact Or.inr (Or.inr (fun p hp hpA => h p hpA hp))

/-- The queue invariant of the claim: no cell is claimed by two distinct
placement actions. -/
def placementExclusive (q : List Action) : Prop :=
  q.Pairwise placementDisjoint

instance (q : List Action) : Decidable (placementExclusive q) :=
  inferInstanceAs (Decidable (q.Pairwise placementDisjoint))

/-- The mutating queue operations exposed by `Utility`. -/
inductive Op where
  | append (id unit_type : String) (locations : List Coord) (upgrade : Bool) (max_num : Nat)
  | prioritize (id : String)
  | remove (id : String)

/-- Run one operation.  A failed `prioritize` raises before mutating
anything, so the observable state it leaves behind is the unchanged one. -/
def applyOp (u : Utility) : Op → Utility
  | Op.append id unit_type locations upgrade max_num =>
      append_action u id unit_type locations upgrade max_num
  | Op.prioritize id => (prioritize_action u id).getD u
  | Op.remove id => remove_action u id

/-- Run a sequence of operations from the freshly initialised `Utility`. -/
def applyOps (ops : List Op) : Utility :=
  ops.foldl applyOp utilityInit

/-- An operation is valid when any appended cell list is duplicate-free and
stays inside the arena. -/
def validOp : Op → Prop
  | Op.append _ _ locations _ _ => locations.Nodup ∧ ∀ p ∈ locations, validCoord p
  | Op.prioritize _ => True
  | Op.remove _ => True

instance : ∀ op : Op, Decidable (validOp op)
  | Op.append _ _ locations _ _ =>
      inferInstanceAs (Decidable (locations.Nodup ∧ ∀ p ∈ locations, validCoord p))
  | Op.prioritize _ => inferInstanceAs (Decidable True)
  | Op.remove _ => inferInstanceAs (Decidable True)

/-- The erase-fold of the trim step only ever drops elements. -/
theorem foldl_erase_sublist :
    ∀ (hs : List Nat) (l : List Coord),
      List.Sublist (hs.foldl (fun locs h => locs.erase (inv_point_hash h)) l) l
  | [], l => List.Sublist.refl l
  | h :: hs, l => by
    simp only [List.foldl_cons]
    exact (foldl_erase_sublist hs (l.erase (inv_point_hash h))).trans
      (l.erase_sublist (inv_point_hash h))

/-- On a duplicate-free list of in-arena coordinates, the erase-fold of the
trim step removes exactly the cells whose hash occurs in the hash list. -/
theorem foldl_erase_eq_filter :
    ∀ (hs : List Nat) (l : List Coord), l.Nodup → (∀ p ∈ l, validCoord p) →
      hs.foldl (fun locs h => locs.erase (inv_point_hash h)) l
        = l.filter (fun q => !(hs.contains (point_hash q)))
  | [], l, _, _ => by simp
  | h :: hs, l, hnd, hval => by
    simp only [List.foldl_cons]
    rw [foldl_erase_eq_filter hs (l.erase (inv_point_hash h))
      (hnd.erase _) (fun p hp => hval p (List.mem_of_mem_erase hp))]
    rw [List.Nodup.erase_eq_filter hnd, List.filter_filter]
    apply List.filter_congr
    intro q hq
    have hrt : inv_point_hash (point_hash q) = q :=
      point_hash_roundtrip.1 q (hval q hq).1 (hval q hq).2
    have hiff : (q == inv_point_hash h) = (point_hash q == h) := by
      by_cases he : point_hash q = h
      · have hq2 : q = inv_point_hash h := by rw [← he, hrt]
        simp [hq2, he, point_hash_inv]
      · have hne : q ≠ inv_point_hash h := fun hq2 => he (by rw [hq2, point_hash_inv])
        simp [hne, he]
    simp [List.contains_cons, hiff, Bool.not_or, Bool.and_comm, bne,
      Bool.beq_eq_decide_eq]

/-- On a duplicate-free in-arena location list, `trim_overlap` removes
exactly the cells whose hash occurs in the new hash set. -/
theorem trim_overlap_locations (S : List Nat) (a : Action) (hnd : a.locations.Nodup)
    (hval : ∀ p ∈ a.locations, validCoord p) :
    (trim_overlap S a).locations
      = a.locations.filter (fun q => !(S.contains (point_hash q))) := by
  simp only [trim_overlap]
  rw [foldl_erase_eq_filter _ _ hnd hval]
  apply List.filter_congr
  intro q hq
  congr 1
  by_cases hc : S.contains (point_hash q) = true
  · have hmem : point_hash q ∈
        ((a.locations.map point_hash).filter (fun h => S.contains h)).dedup := by
      rw [List.mem_dedup, List.mem_filter]
      exact ⟨List.mem_map_of_mem point_hash hq, hc⟩
    rw [hc]
    exact List.elem_eq_true_of_mem hmem
  · have hnmem : point_hash q ∉
        ((a.locations.map point_hash).filter (fun h => S.contains h)).dedup := by
      rw [List.mem_dedup, List.mem_filter]
      rintro ⟨-, hc2⟩
      exact hc hc2
    rw [Bool.not_eq_true] at hc
    rw [hc]
    rw [← Bool.not_eq_true]
    simpa using hnmem

/-- The inductive invariant carried across operations: every queued action's
cell list is duplicate-free and in-arena, and no cell is claimed by two
placement actions. -/
def QueueInv (q : List Action) : Prop :=
  (∀ a ∈ q, a.locations.Nodup ∧ ∀ p ∈ a.locations, validCoord p) ∧
  placementExclusive q

/-- Trimming only drops cells. -/
theorem trim_step_locations_sublist (upg : Bool) (S : List Nat) (a : Action) :
    List.Sublist (trim_step upg S a).locations a.locations := by
  unfold trim_step
  split
  · simp only [trim_overlap]
    exact foldl_erase_sublist _ _
  · exact List.Sublist.refl _

/-- Trimming never flips the upgrade flag. -/
theorem trim_step_upgrade_eq (upg : Bool) (S : List Nat) (a : Action) :
    (trim_step upg S a).upgrade = a.upgrade := by
  unfold trim_step trim_overlap
  split <;> rfl

theorem remove_action_inv (u : Utility) (id : String) (hinv : QueueInv u.action_queue) :
    QueueInv (remove_action u id).action_queue := by
  rw [(remove_action_eq u id).1]
  exact ⟨fun a ha => hinv.1 a (List.eraseP_subset _ ha),
    List.Pairwise.sublist (List.eraseP_sublist _) hinv.2⟩

theorem prioritize_action_inv (u : Utility) (id : String)
    (hinv : QueueInv u.action_queue) :
    QueueInv ((prioritize_action u id).getD u).action_queue := by
  cases hp : prioritize_action u id with
  | none => simpa using hinv
  | some u' =>
    obtain ⟨-, -, i, hi, -, hqueue⟩ := (prioritize_action_eq u id).2 u' hp
    have hperm : List.Perm u'.action_queue u.action_queue := by
      rw [hqueue, List.eraseIdx_eq_take_drop_succ]
      have h2 : u.action_queue
          = u.action_queue.take i
              ++ u.action_queue.get ⟨i, hi⟩ :: u.action_queue.drop (i + 1) := by
        conv_lhs => rw [← List.take_append_drop i u.action_queue]
        congr 1
        rw [List.get_eq_getElem]
        exact (List.getElem_cons_drop u.action_queue i hi).symm
      conv_rhs => rw [h2]
      exact List.perm_middle.symm
    refine ⟨fun a ha => hinv.1 a (hperm.subset ha), ?_⟩
    exact (hperm.pairwise_iff placementDisjoint_symm).mpr hinv.2

theorem append_action_inv (u : Utility) (id unit_type : String)
    (locations : List Coord) (upgrade : Bool) (max_num : Nat)
    (hinv : QueueInv u.action_queue)
    (hnd : locations.Nodup) (hval : ∀ p ∈ locations, validCoord p) :
    QueueInv (append_action u id unit_type locations upgrade max_num).action_queue := by
  obtain ⟨hq, -, -⟩ := append_action_spec u id unit_type locations upgrade max_num
  rw [hq]
  obtain ⟨hprop, hpair⟩ := hinv
  have htrim_mem : ∀ a ∈ (u.action_queue.map
      (trim_step upgrade (locations.map point_hash).dedup)).eraseP (fun a => a.id == id),
      a.locations.Nodup ∧ ∀ p ∈ a.locations, validCoord p := by
    intro a ha
    have ha2 := List.eraseP_subset _ ha
    obtain ⟨b, hb, rfl⟩ := List.mem_map.mp ha2
    obtain ⟨hbnd, hbval⟩ := hprop b hb
    have hsub := trim_step_locations_sublist upgrade (locations.map point_hash).dedup b
    exact ⟨List.Nodup.sublist hsub hbnd, fun p hp => hbval p (hsub.subset hp)⟩
  constructor
  · intro a ha
    rcases List.mem_append.mp ha with ha | ha
    · exact htrim_mem a ha
    · simp only [List.mem_singleton] at ha
      subst ha
      exact ⟨hnd, hval⟩
  · rw [placementExclusive, List.pairwise_append]
    refine ⟨?_, List.pairwise_singleton _ _, ?_⟩
    · apply List.Pairwise.sublist (List.eraseP_sublist _)
      rw [List.pairwise_map]
      apply hpair.imp
      intro a b hab
      have hab2 : a.upgrade = true ∨ b.upgrade = true
          ∨ ∀ p ∈ a.locations, p ∉ b.locations := hab
      rcases hab2 with h1 | h1 | h1
      · exact Or.inl (by rw [trim_step_upgrade_eq]; exact h1)
      · exact Or.inr (Or.inl (by rw [trim_step_upgrade_eq]; exact h1))
      · refine Or.inr (Or.inr ?_)
        intro p hp hpb
        exact h1 p ((trim_step_locations_sublist upgrade _ a).subset hp)
          ((trim_step_locations_sublist upgrade _ b).subset hpb)
    · intro a ha b hb
      simp only [List.mem_singleton] at hb
      subst hb
      by_cases hupg : upgrade = true
      · exact Or.inr (Or.inl hupg)
      · have hupgf : upgrade = false := by
          cases upgrade
          · rfl
          · exact absurd rfl hupg
        have ha2 := List.eraseP_subset _ ha
        obtain ⟨b0, hb0, rfl⟩ := List.mem_map.mp ha2
        by_cases hb0u : b0.upgrade = true
        · exact Or.inl (by rw [trim_step_upgrade_eq]; exact hb0u)
        · have hb0f : b0.upgrade = false := by
            cases hb0v : b0.upgrade
            · rfl
            · exact absurd hb0v hb0u
          refine Or.inr (Or.inr ?_)
          intro p hp hpnew
          obtain ⟨hb0nd, hb0val⟩ := hprop b0 hb0
          have hts : trim_step upgrade (locations.map point_hash).dedup b0
              = trim_overlap (locations.map point_hash).dedup b0 := by
            unfold trim_step
            rw [if_pos ⟨hupgf, hb0f⟩]
          rw [hts, trim_overlap_locations _ _ hb0nd hb0val] at hp
          obtain ⟨-, hpred⟩ := List.mem_filter.mp hp
          have hin : (locations.map point_hash).dedup.contains (point_hash p) = true :=
            List.elem_eq_true_of_mem
              (List.mem_dedup.mpr (List.mem_map_of_mem point_hash hpnew))
          rw [hin] at hpred
          simp at hpred

theorem applyOp_inv (u : Utility) (op : Op) (hop : validOp op)
    (hinv : QueueInv u.action_queue) : QueueInv (applyOp u op).action_queue := by
  cases op with
  | append id ut locs upg mx =>
    obtain ⟨hnd, hval⟩ := hop
    exact append_action_inv u id ut locs upg mx hinv hnd hval
  | prioritize id => exact prioritize_action_inv u id hinv
  | remove id => exact remove_action_inv u id hinv

theorem applyOps_inv :
    ∀ (ops : List Op) (u : Utility), QueueInv u.action_queue →
      (∀ op ∈ ops, validOp op) → QueueInv (ops.foldl applyOp u).action_queue
  | [], _, h, _ => h
  | op :: ops, u, h, hv => by
    simp only [List.foldl_cons]
    exact applyOps_inv ops (applyOp u op)
      (applyOp_inv u op (hv op (by simp)) h)
      (fun o ho => hv o (by simp [ho]))

/-- C3 (amended): starting from the empty queue, after any sequence of
append / prioritize / remove operations in which every append passes a
duplicate-free list of in-arena cells, no cell appears in the target cells
of two distinct placement actions (appends trim contested cells out of
earlier placement actions; upgrade actions neither trim nor are trimmed).
The duplicate-free / in-arena proviso is forced by the counterexample:
a repeated cell inside one appended list survives the one-occurrence trim,
after which two placement actions share that cell. -/
theorem queue_placement_exclusive (ops : List Op) (hval : ∀ op ∈ ops, validOp op) :
    placementExclusive (applyOps ops).action_queue :=
  (applyOps_inv ops utilityInit
    ⟨fun _ ha => absurd ha (by simp [utilityInit]), List.Pairwise.nil⟩ hval).2

/-- Witness for C3 (amended): the spec's own trim example — appending "b"
over (2,2),(3,3) trims (2,2) out of "a" and the queue stays exclusive. -/
theorem queue_placement_exclusive_witness :
    (∀ op ∈ [Op.append "a" "W" [(1, 1), (2, 2)] false 9999,
        Op.append "b" "W" [(2, 2), (3, 3)] false 9999], validOp op) ∧
    placementExclusive (applyOps [Op.append "a" "W" [(1, 1), (2, 2)] false 9999,
        Op.append "b" "W" [(2, 2), (3, 3)] false 9999]).action_queue :=
  ⟨by decide, queue_placement_exclusive _ (by decide)⟩

/-- Counterexample to C3 as stated: appending "a" with the duplicated cell
(1,1),(1,1) and then "b" claiming (1,1) removes only the first duplicate
from "a", leaving two distinct placement actions that both claim (1,1). -/
theorem placement_exclusivity_counterexample :
    (applyOps [Op.append "a" "W" [(1, 1), (1, 1)] false 9999,
        Op.append "b" "W" [(1, 1)] false 9999]).action_queue
      = [⟨"a", "W", [(1, 1)], false, 9999⟩, ⟨"b", "W", [(1, 1)], false, 9999⟩] ∧
    ¬ placementExclusive
        [⟨"a", "W", [(1, 1)], false, 9999⟩, ⟨"b", "W", [(1, 1)], false, 9999⟩] := by
  constructor
  · decide
  · decide

end BoilerUp
